import Mathlib

/-!
Verification of the picomeson compiler-identification probe
(`src/interpreter/builtins/compiler/compiler_id.c`) and of the
compiler-identification subsystem around it described in the specification.

The probe source is:

#if defined(__EMSCRIPTEN__)
#define MESON_COMPILER_FAMILY emscripten
#elif defined(__clang__)
#define MESON_COMPILER_FAMILY clang
#elif defined(__GNUC__)
#define MESON_COMPILER_FAMILY gcc
#elif defined(_MSC_VER)
#define MESON_COMPILER_FAMILY msvc
#endif
"MESON_DELIMITER" MESON_COMPILER_FAMILY

We embed the C preprocessor's action on exactly this file: the macro
environment records which of the four predefined compiler macros are
defined, the `#if`/`#elif` chain becomes the definition of
`MESON_COMPILER_FAMILY`, and `preprocessProbe` is the text the
preprocessor emits for the single non-directive line.
-/

namespace PicoMeson

/-- The four predefined compiler macros the probe tests, as a macro
environment: each field is `true` when the corresponding macro is defined
(`EMSCRIPTEN` for `__EMSCRIPTEN__`, `clang` for `__clang__`, `GNUC` for
`__GNUC__`, `MSC_VER` for `_MSC_VER`). -/
structure MacroEnv where
  EMSCRIPTEN : Bool
  clang : Bool
  GNUC : Bool
  MSC_VER : Bool
deriving DecidableEq

/-- The `#if defined(...)`/`#elif defined(...)` chain of the probe, lines 1-9
of `compiler_id.c`: the value of the macro `MESON_COMPILER_FAMILY` after the
directives run — `some` of the replacement token when one of the branches
fired, `none` when the macro stays undefined (there is no `#else` branch). -/
def MESON_COMPILER_FAMILY (env : MacroEnv) : Option String :=
  if env.EMSCRIPTEN then some "emscripten"
  else if env.clang then some "clang"
  else if env.GNUC then some "gcc"
  else if env.MSC_VER then some "msvc"
  else none

/-- The preprocessor's output for the probe: the directive lines emit
nothing, and the single text line
`"MESON_DELIMITER" MESON_COMPILER_FAMILY` is emitted with the identifier
`MESON_COMPILER_FAMILY` macro-expanded when it is defined and left as the
bare identifier when it is not.  The string literal (quotes included) and
the single separating space are preserved verbatim, as the preprocessor
does not touch them.  Preprocessing is total: with no branch taken the
file still preprocesses successfully. -/
def preprocessProbe (env : MacroEnv) : String :=
  "\"MESON_DELIMITER\" " ++
    (match MESON_COMPILER_FAMILY env with
     | some tok => tok
     | none => "MESON_COMPILER_FAMILY")

/-- The delimiter string the subsystem searches for in captured output. -/
def MESON_DELIMITER : String := "MESON_DELIMITER"

/-- Modelled from the spec: the `CompilerFamily` enumeration of the
Identification Result data model — `{Emscripten, Clang, Gcc, Msvc, Unknown}`. -/
inductive CompilerFamily where
  | Emscripten
  | Clang
  | Gcc
  | Msvc
  | Unknown
deriving DecidableEq

/-- `isPre needle hay` is true when `needle` occurs at the very start of
`hay` (character-by-character comparison). -/
def isPre : List Char → List Char → Bool
  | [], _ => true
  | _ :: _, [] => false
  | c :: cs, d :: ds => c == d && isPre cs ds

/-- `occursAt d text i`: the delimiter `d` occurs in `text` starting at
position `i`. -/
def occursAt (d text : List Char) (i : Nat) : Bool :=
  isPre d (List.drop i text)

/-- Modelled from the spec: the Output Parser's scan for the delimiter.
It walks the captured text left to right and, at the first position where
the delimiter occurs, returns the text immediately following the
delimiter; it returns `none` when the delimiter never occurs. -/
def dropThroughDelim (d : List Char) : List Char → Option (List Char)
  | [] => if isPre d [] then some [] else none
  | c :: cs =>
    if isPre d (c :: cs) then some (List.drop d.length (c :: cs))
    else dropThroughDelim d cs

/-- `occursIn d text`: the delimiter `d` occurs somewhere in `text`. -/
def occursIn (d text : List Char) : Bool :=
  (dropThroughDelim d text).isSome

/-- Whitespace for token extraction: space, tab, newline, carriage return. -/
def isWs (c : Char) : Bool :=
  c == ' ' || c == '\t' || c == '\n' || c == '\r'

/-- Modelled from the spec: the Output Parser extracts the token
immediately following the delimiter up to the next whitespace or newline. -/
def extractToken (rest : List Char) : List Char :=
  List.takeWhile (fun c => !isWs c) rest

/-- The known family tokens the probe can emit. -/
def knownFamilyTokens : List String :=
  ["emscripten", "clang", "gcc", "msvc"]

/-- Modelled from the spec: the Output Parser's exact-match table from
emitted token to `CompilerFamily`.  It is a total function: an unmatched
token maps to `Unknown`, never to an error. -/
def familyOfToken (t : List Char) : CompilerFamily :=
  if t = "emscripten".toList then CompilerFamily.Emscripten
  else if t = "clang".toList then CompilerFamily.Clang
  else if t = "gcc".toList then CompilerFamily.Gcc
  else if t = "msvc".toList then CompilerFamily.Msvc
  else CompilerFamily.Unknown

/-- Modelled from the spec: the Output Parser over character lists —
locate the first occurrence of the delimiter, extract the token
immediately following it up to the next whitespace/newline, and map it
through the exact-match table.  A missing delimiter yields `Unknown`;
the parser never signals an error. -/
def parseOutputL (d text : List Char) : CompilerFamily :=
  match dropThroughDelim d text with
  | none => CompilerFamily.Unknown
  | some rest => familyOfToken (extractToken rest)

/-- Modelled from the spec: the Output Parser on strings. -/
def parseOutput (delim text : String) : CompilerFamily :=
  parseOutputL delim.toList text.toList

/-! ### The Capability Cache (modelled from the spec)

The cache, `resolve`, and the pipeline are not present in the provided
source; they are modelled from the specification's §3-§4.4. -/

/-- Modelled from the spec: the error taxonomy of §7 (minus `UnknownFamily`,
which is a valid result, not an error). -/
inductive PipelineError where
  | UnsupportedProbeKind
  | ExecutableNotFound
  | PermissionDenied
  | Timeout
  | NonZeroExitWithNoUsableOutput
  | ParseError
deriving DecidableEq

/-- Modelled from the spec: the `IdentificationResult` record —
`{family, rawVersionString, parsedVersion, linkerId}`, a plain immutable
value compared by structural equality. -/
structure IdentificationResult where
  family : CompilerFamily
  rawVersionString : Option String
  parsedVersion : Option (List Nat)
  linkerId : Option String
deriving DecidableEq

/-- Modelled from the spec: the `InvocationKey` fingerprint of (resolved
compiler path, flags, probe kind, environment variables affecting
compilation); equal keys are interchangeable. -/
structure InvocationKey where
  compilerPath : String
  flags : List String
  probeKind : String
  env : List (String × String)
deriving DecidableEq

/-- First-match lookup in the cache's association list. -/
def lookupCache (cache : List (InvocationKey × IdentificationResult))
    (k : InvocationKey) : Option IdentificationResult :=
  match cache with
  | [] => none
  | (k', r) :: rest => if k' = k then some r else lookupCache rest k

/-- Modelled from the spec: `resolve` of §4.4 with the toolchain behaviour
abstracted as a deterministic `pipeline` function (the toolchain is
unchanged between calls exactly when the same `pipeline` is passed).  The
result triple is (outcome, cache after the call, child processes spawned
by this call): a cache hit returns the stored result with zero spawns; a
miss runs the generate→invoke→parse pipeline, which spawns one child
process, and stores the result only on success — a failure is never
cached. -/
def resolve (pipeline : InvocationKey → Except PipelineError IdentificationResult)
    (cache : List (InvocationKey × IdentificationResult)) (k : InvocationKey) :
    Except PipelineError IdentificationResult
      × List (InvocationKey × IdentificationResult) × Nat :=
  match lookupCache cache k with
  | some r => (Except.ok r, cache, 0)
  | none =>
    match pipeline k with
    | Except.ok r => (Except.ok r, (k, r) :: cache, 1)
    | Except.error e => (Except.error e, cache, 1)

/-! ### Concurrent callers of the cache (modelled from the spec)

§4.4/§5 describe the single-flight discipline: concurrent callers of the
same key observe at most one in-flight pipeline execution and all receive
the same stored result.  We model one configuration run as a transition
system: each caller is a slot holding its requested key and its phase, the
cache and the in-flight key set are the shared state, and a scheduler
interleaves caller steps arbitrarily. -/

/-- Modelled from the spec: the phase of one caller of `resolve` — not yet
started, holding the single in-flight pipeline execution for its key, or
finished with a result. -/
inductive CallerPhase where
  | pending
  | computing
  | done (r : IdentificationResult)
deriving DecidableEq

/-- Modelled from the spec: the shared state of one configuration run —
the cache, the keys with an in-flight pipeline execution, the callers
(indexed slots), and the number of child processes spawned per key. -/
structure CacheState where
  cache : List (InvocationKey × IdentificationResult)
  inflight : List InvocationKey
  callers : Nat → Option (InvocationKey × CallerPhase)
  spawns : InvocationKey → Nat

/-- The initial state of a run: empty cache, nothing in flight, every
requested caller pending, no process spawned. -/
def initState (reqs : List InvocationKey) : CacheState :=
  { cache := []
    inflight := []
    callers := fun i => (reqs.get? i).map (fun k => (k, CallerPhase.pending))
    spawns := fun _ => 0 }

/-- Overwrite caller slot `i`. -/
def setCaller (f : Nat → Option (InvocationKey × CallerPhase)) (i : Nat)
    (x : InvocationKey × CallerPhase) : Nat → Option (InvocationKey × CallerPhase) :=
  fun j => if j = i then some x else f j

/-- Add one spawned child process for key `k`. -/
def bump (f : InvocationKey → Nat) (k : InvocationKey) : InvocationKey → Nat :=
  fun k' => if k' = k then f k' + 1 else f k'

/-- Modelled from the spec: one scheduler step of the single-flight cache
discipline.  A pending caller whose key is cached completes immediately
(hit, no spawn); a pending caller whose key is uncached and not in flight
starts the single pipeline execution (miss: one spawn, key becomes
in-flight) — a pending caller whose key is already in flight has no step
and waits; a computing caller commits the pipeline's result to the cache
and completes. -/
inductive Step (p : InvocationKey → IdentificationResult) :
    CacheState → CacheState → Prop where
  | hit : ∀ (s : CacheState) (i : Nat) (k : InvocationKey)
      (v : IdentificationResult),
      s.callers i = some (k, CallerPhase.pending) →
      lookupCache s.cache k = some v →
      Step p s { s with callers := setCaller s.callers i (k, CallerPhase.done v) }
  | miss : ∀ (s : CacheState) (i : Nat) (k : InvocationKey),
      s.callers i = some (k, CallerPhase.pending) →
      lookupCache s.cache k = none →
      k ∉ s.inflight →
      Step p s { s with
        callers := setCaller s.callers i (k, CallerPhase.computing)
        inflight := k :: s.inflight
        spawns := bump s.spawns k }
  | commit : ∀ (s : CacheState) (i : Nat) (k : InvocationKey),
      s.callers i = some (k, CallerPhase.computing) →
      Step p s { s with
        cache := (k, p k) :: s.cache
        callers := setCaller s.callers i (k, CallerPhase.done (p k)) }

/-- Reachability under the scheduler: any finite interleaving of steps. -/
def Reaches (p : InvocationKey → IdentificationResult)
    (s s' : CacheState) : Prop :=
  Relation.ReflTransGen (Step p) s s'

/-- The single-flight invariant of the cache state: cached results are the
pipeline's results, a computing caller's key is in flight, uncached, and
held by no other caller, spawn counts mirror the in-flight set, and done
callers hold the pipeline's result for their key, which is in flight. -/
structure Inv (p : InvocationKey → IdentificationResult) (s : CacheState) : Prop where
  cache_correct : ∀ k v, (k, v) ∈ s.cache → v = p k
  cached_inflight : ∀ k v, (k, v) ∈ s.cache → k ∈ s.inflight
  computing_inflight : ∀ i k,
    s.callers i = some (k, CallerPhase.computing) → k ∈ s.inflight
  computing_unique : ∀ i j k,
    s.callers i = some (k, CallerPhase.computing) →
    s.callers j = some (k, CallerPhase.computing) → i = j
  computing_uncached : ∀ i k,
    s.callers i = some (k, CallerPhase.computing) → lookupCache s.cache k = none
  spawns_inflight : ∀ k, s.spawns k = if k ∈ s.inflight then 1 else 0
  done_correct : ∀ i k v,
    s.callers i = some (k, CallerPhase.done v) → v = p k
  done_inflight : ∀ i k v,
    s.callers i = some (k, CallerPhase.done v) → k ∈ s.inflight

/-! ### Supporting lemmas about the delimiter scan -/

theorem isPre_nil_right (d : List Char) : isPre d [] = true ↔ d = [] := by
  cases d with
  | nil => simp [isPre]
  | cons c cs => simp [isPre]

/-- The scan is complete: when it reports no delimiter, the delimiter
occurs at no position at all. -/
theorem occursAt_false_of_dropThroughDelim_none (d : List Char) :
    ∀ text : List Char, dropThroughDelim d text = none →
      ∀ i : Nat, occursAt d text i = false := by
  intro text
  induction text with
  | nil =>
    intro h i
    have hd : ¬ isPre d [] = true := by
      intro hp
      simp [dropThroughDelim, hp] at h
    simp [occursAt, List.drop_nil]
    exact Bool.not_eq_true _ |>.mp hd
  | cons c cs ih =>
    intro h i
    have h0 : isPre d (c :: cs) = false := by
      cases hp : isPre d (c :: cs) with
      | false => rfl
      | true => simp [dropThroughDelim, hp] at h
    have hrest : dropThroughDelim d cs = none := by
      simpa [dropThroughDelim, h0] using h
    cases i with
    | zero => simpa [occursAt] using h0
    | succ j => simpa [occursAt, List.drop_succ_cons] using ih hrest j

/-- The scan finds exactly the first occurrence: if the delimiter occurs at
position `i` and at no earlier position, the scan returns the text after
that occurrence. -/
theorem dropThroughDelim_eq_of_first (d : List Char) :
    ∀ (text : List Char) (i : Nat),
      occursAt d text i = true →
      (∀ j, j < i → occursAt d text j = false) →
      dropThroughDelim d text = some (List.drop (i + d.length) text) := by
  intro text
  induction text with
  | nil =>
    intro i h _
    have hd : d = [] := by
      have : isPre d [] = true := by simpa [occursAt, List.drop_nil] using h
      exact (isPre_nil_right d).mp this
    subst hd
    simp [dropThroughDelim, isPre, List.drop_nil]
  | cons c cs ih =>
    intro i h hmin
    cases i with
    | zero =>
      have h0 : isPre d (c :: cs) = true := by simpa [occursAt] using h
      simp [dropThroughDelim, h0]
    | succ j =>
      have h0 : isPre d (c :: cs) = false := by
        simpa [occursAt] using hmin 0 (Nat.succ_pos j)
      have h' : occursAt d cs j = true := by
        simpa [occursAt, List.drop_succ_cons] using h
      have hmin' : ∀ j', j' < j → occursAt d cs j' = false := by
        intro j' hj'
        simpa [occursAt, List.drop_succ_cons] using
          hmin (j' + 1) (Nat.succ_lt_succ hj')
      have hrec := ih j h' hmin'
      have hdrop : List.drop (j + 1 + d.length) (c :: cs)
          = List.drop (j + d.length) cs := by
        rw [Nat.succ_add, List.drop_succ_cons]
      rw [hdrop]
      simpa [dropThroughDelim, h0] using hrec

/-! ### Claim theorems: the probe fragment -/

/-- C1: for each of the four known compiler families, when exactly the
corresponding predefined macro is set, preprocessing the probe makes
`MESON_COMPILER_FAMILY` expand to that family's name token, the emitted
output names that family, and feeding the delimiter-plus-token text to the
Output Parser yields the corresponding `CompilerFamily`. -/
theorem probe_identifies_each_family :
    (MESON_COMPILER_FAMILY ⟨true, false, false, false⟩ = some "emscripten" ∧
      preprocessProbe ⟨true, false, false, false⟩ = "\"MESON_DELIMITER\" emscripten" ∧
      parseOutput MESON_DELIMITER (MESON_DELIMITER ++ "emscripten" ++ "\n")
        = CompilerFamily.Emscripten) ∧
    (MESON_COMPILER_FAMILY ⟨false, true, false, false⟩ = some "clang" ∧
      preprocessProbe ⟨false, true, false, false⟩ = "\"MESON_DELIMITER\" clang" ∧
      parseOutput MESON_DELIMITER (MESON_DELIMITER ++ "clang" ++ "\n")
        = CompilerFamily.Clang) ∧
    (MESON_COMPILER_FAMILY ⟨false, false, true, false⟩ = some "gcc" ∧
      preprocessProbe ⟨false, false, true, false⟩ = "\"MESON_DELIMITER\" gcc" ∧
      parseOutput MESON_DELIMITER (MESON_DELIMITER ++ "gcc" ++ "\n")
        = CompilerFamily.Gcc) ∧
    (MESON_COMPILER_FAMILY ⟨false, false, false, true⟩ = some "msvc" ∧
      preprocessProbe ⟨false, false, false, true⟩ = "\"MESON_DELIMITER\" msvc" ∧
      parseOutput MESON_DELIMITER (MESON_DELIMITER ++ "msvc" ++ "\n")
        = CompilerFamily.Msvc) := by
  decide

/-- C2 counterexample: for the gcc family, the probe's preprocessed output
is `"MESON_DELIMITER" gcc` — the string literal keeps its quotes and is
separated from the token by a space — so the contiguous text
`MESON_DELIMITERgcc` does NOT occur anywhere in the compiled output. -/
theorem probe_output_not_contiguous :
    preprocessProbe ⟨false, false, true, false⟩ = "\"MESON_DELIMITER\" gcc" ∧
    ¬ ∃ i, occursAt "MESON_DELIMITERgcc".toList
        (preprocessProbe ⟨false, false, true, false⟩).toList i = true := by
  refine ⟨by decide, ?_⟩
  rintro ⟨i, hi⟩
  have hnone := occursAt_false_of_dropThroughDelim_none
    "MESON_DELIMITERgcc".toList
    (preprocessProbe ⟨false, false, true, false⟩).toList (by decide) i
  rw [hnone] at hi
  exact Bool.false_ne_true hi

/-- C2 amended: for every known compiler family, the probe's preprocessed
output consists of the delimiter string literal (quotes included)
immediately followed by one space and then the family token — the
delimiter and the token are adjacent preprocessing tokens, textually
separated only by the literal's closing quote and that space. -/
theorem probe_output_delimiter_space_token :
    preprocessProbe ⟨true, false, false, false⟩
      = "\"MESON_DELIMITER\" " ++ "emscripten" ∧
    preprocessProbe ⟨false, true, false, false⟩
      = "\"MESON_DELIMITER\" " ++ "clang" ∧
    preprocessProbe ⟨false, false, true, false⟩
      = "\"MESON_DELIMITER\" " ++ "gcc" ∧
    preprocessProbe ⟨false, false, false, true⟩
      = "\"MESON_DELIMITER\" " ++ "msvc" := by
  decide

/-- C3: the `#elif` chain gives the four macro tests a strict precedence
(`__EMSCRIPTEN__`, then `__clang__`, then `__GNUC__`, then `_MSC_VER`): for
every macro environment, a compiler defining several of the macros gets the
highest-precedence matching family, never a lower one. -/
theorem family_precedence (env : MacroEnv) :
    (env.EMSCRIPTEN = true → MESON_COMPILER_FAMILY env = some "emscripten") ∧
    (env.EMSCRIPTEN = false → env.clang = true →
      MESON_COMPILER_FAMILY env = some "clang") ∧
    (env.EMSCRIPTEN = false → env.clang = false → env.GNUC = true →
      MESON_COMPILER_FAMILY env = some "gcc") ∧
    (env.EMSCRIPTEN = false → env.clang = false → env.GNUC = false →
      env.MSC_VER = true → MESON_COMPILER_FAMILY env = some "msvc") := by
  obtain ⟨e, c, g, m⟩ := env
  refine ⟨?_, ?_, ?_, ?_⟩ <;> intros <;> subst_vars <;> rfl

/-- Witness for C3 at a clang-like environment defining both `__clang__`
and `__GNUC__`: the higher-precedence clang branch wins. -/
theorem family_precedence_witness :
    MESON_COMPILER_FAMILY ⟨false, true, true, false⟩ = some "clang" :=
  (family_precedence ⟨false, true, true, false⟩).2.1 rfl rfl

/-- C4: if none of the four predefined macros is defined when the probe is
preprocessed, `MESON_COMPILER_FAMILY` remains undefined (the chain has no
`#else`), which is the probe's only failure handling. -/
theorem family_undefined_when_no_macro (env : MacroEnv)
    (h1 : env.EMSCRIPTEN = false) (h2 : env.clang = false)
    (h3 : env.GNUC = false) (h4 : env.MSC_VER = false) :
    MESON_COMPILER_FAMILY env = none := by
  simp [MESON_COMPILER_FAMILY, h1, h2, h3, h4]

/-- Witness for C4: the empty macro environment leaves the macro undefined. -/
theorem family_undefined_when_no_macro_witness :
    MESON_COMPILER_FAMILY ⟨false, false, false, false⟩ = none :=
  family_undefined_when_no_macro ⟨false, false, false, false⟩ rfl rfl rfl rfl

/-- C5: with no family macro defined, preprocessing still succeeds (the
embedding is total; there is no `#else`/`#error` branch) and the output
line is the delimiter string literal followed by the unexpanded identifier
`MESON_COMPILER_FAMILY`; the token following the delimiter is the full
nonempty identifier `MESON_COMPILER_FAMILY`, which is outside the known
family set, so the exact-match table maps it to `Unknown`. -/
theorem probe_undefined_family_output :
    preprocessProbe ⟨false, false, false, false⟩
      = "\"MESON_DELIMITER\" MESON_COMPILER_FAMILY" ∧
    extractToken "MESON_COMPILER_FAMILY\n".toList
      = "MESON_COMPILER_FAMILY".toList ∧
    "MESON_COMPILER_FAMILY" ∉ knownFamilyTokens ∧
    parseOutput MESON_DELIMITER
      (MESON_DELIMITER ++ "MESON_COMPILER_FAMILY" ++ "\n")
      = CompilerFamily.Unknown := by
  decide

/-! ### Claim theorems: the Output Parser -/

/-- C6: the Output Parser's exact-match table is total on tokens — every
token outside the known family set yields the value `Unknown`; no error is
signalled (`familyOfToken` returns a `CompilerFamily`, not an error). -/
theorem familyOfToken_unknown (t : List Char)
    (h : t ∉ knownFamilyTokens.map String.toList) :
    familyOfToken t = CompilerFamily.Unknown := by
  simp only [knownFamilyTokens, List.map, List.mem_cons, List.not_mem_nil,
    or_false, not_or] at h
  obtain ⟨h1, h2, h3, h4⟩ := h
  unfold familyOfToken
  rw [if_neg h1, if_neg h2, if_neg h3, if_neg h4]

/-- Witness for C6: the token `tcc` is not a known family and parses to
`Unknown`. -/
theorem familyOfToken_unknown_witness :
    familyOfToken "tcc".toList = CompilerFamily.Unknown :=
  familyOfToken_unknown "tcc".toList (by decide)

/-- C7: when the delimiter occurs more than once in the captured text, the
Output Parser uses the first occurrence: the result is the exact-match
lookup of the token extracted immediately after that first occurrence, up
to the next whitespace or newline. -/
theorem parseOutput_first_delimiter (d text : List Char) (i : Nat)
    (hocc : occursAt d text i = true)
    (hfirst : ∀ j, j < i → occursAt d text j = false)
    (_hagain : ∃ j, i < j ∧ occursAt d text j = true) :
    parseOutputL d text
      = familyOfToken (extractToken (List.drop (i + d.length) text)) := by
  have h := dropThroughDelim_eq_of_first d text i hocc hfirst
  simp [parseOutputL, h]

/-- Witness for C7: in `xx@@gcc y@@msvc z` the delimiter `@@` occurs at
positions 2 and 9; the parser uses the first and yields `Gcc`. -/
theorem parseOutput_first_delimiter_witness :
    occursAt "@@".toList "xx@@gcc y@@msvc z".toList 9 = true ∧
    parseOutputL "@@".toList "xx@@gcc y@@msvc z".toList = CompilerFamily.Gcc := by
  have h := parseOutput_first_delimiter "@@".toList "xx@@gcc y@@msvc z".toList 2
    (by decide) (by decide) ⟨9, by decide⟩
  exact ⟨by decide, h.trans (by decide)⟩

/-! ### Claim theorems: the Capability Cache -/

/-- A sample invocation key used by the cache witnesses. -/
def wKey : InvocationKey :=
  { compilerPath := "/usr/bin/cc", flags := ["-O2"], probeKind := "c", env := [] }

/-- A sample identification result used by the cache witnesses. -/
def wRes : IdentificationResult :=
  { family := CompilerFamily.Gcc, rawVersionString := none
    parsedVersion := none, linkerId := none }

/-- A sample pipeline (toolchain behaviour) used by the cache witnesses. -/
def wPipe : InvocationKey → Except PipelineError IdentificationResult :=
  fun _ => Except.ok wRes

/-- C8: `resolve` is idempotent — when a call for a key succeeds, a second
call with the same key against the unchanged toolchain (same pipeline)
returns the equal result, leaves the cache unchanged, and spawns zero
child processes. -/
theorem resolve_idempotent
    (p : InvocationKey → Except PipelineError IdentificationResult)
    (cache : List (InvocationKey × IdentificationResult)) (k : InvocationKey)
    (v : IdentificationResult)
    (c₁ : List (InvocationKey × IdentificationResult)) (s₁ : Nat)
    (h : resolve p cache k = (Except.ok v, c₁, s₁)) :
    resolve p c₁ k = (Except.ok v, c₁, 0) := by
  unfold resolve at h
  cases hc : lookupCache cache k with
  | some r =>
    rw [hc] at h
    simp only [Prod.mk.injEq, Except.ok.injEq] at h
    obtain ⟨hv, hcc, -⟩ := h
    subst hv
    subst hcc
    unfold resolve
    rw [hc]
  | none =>
    rw [hc] at h
    cases hp : p k with
    | ok r =>
      rw [hp] at h
      simp only [Prod.mk.injEq, Except.ok.injEq] at h
      obtain ⟨hv, hcc, -⟩ := h
      subst hv
      subst hcc
      unfold resolve
      simp [lookupCache]
    | error e =>
      rw [hp] at h
      simp at h

/-- Witness for C8: after a successful first call populates the cache, the
second call returns the same result from the cache with zero spawns. -/
theorem resolve_idempotent_witness :
    resolve wPipe [(wKey, wRes)] wKey = (Except.ok wRes, [(wKey, wRes)], 0) :=
  resolve_idempotent wPipe [] wKey wRes [(wKey, wRes)] 1 rfl

/-- C9: a pipeline failure is never stored in the Capability Cache — a
failed `resolve` call leaves the cache unchanged (and did run the pipeline:
one spawn), and a subsequent call with the same key re-runs the full
pipeline, so that once the toolchain is fixed (any pipeline now succeeding
on the key) the call succeeds with no cache clear. -/
theorem resolve_failure_not_cached
    (p : InvocationKey → Except PipelineError IdentificationResult)
    (cache : List (InvocationKey × IdentificationResult)) (k : InvocationKey)
    (e : PipelineError)
    (c' : List (InvocationKey × IdentificationResult)) (s : Nat)
    (h : resolve p cache k = (Except.error e, c', s)) :
    c' = cache ∧ s = 1 ∧
      ∀ (p' : InvocationKey → Except PipelineError IdentificationResult)
        (v : IdentificationResult), p' k = Except.ok v →
          resolve p' cache k = (Except.ok v, (k, v) :: cache, 1) := by
  unfold resolve at h
  cases hc : lookupCache cache k with
  | some r => rw [hc] at h; simp at h
  | none =>
    rw [hc] at h
    cases hp : p k with
    | ok r => rw [hp] at h; simp at h
    | error e' =>
      rw [hp] at h
      simp only [Prod.mk.injEq, Except.error.injEq] at h
      obtain ⟨-, hcc, hs⟩ := h
      refine ⟨hcc.symm, hs.symm, ?_⟩
      intro p' v hv
      unfold resolve
      rw [hc, hv]

/-- Witness for C9: a call whose pipeline fails with `ExecutableNotFound`
caches nothing, and the retry with a now-working toolchain succeeds. -/
theorem resolve_failure_not_cached_witness :
    resolve wPipe [] wKey = (Except.ok wRes, [(wKey, wRes)], 1) := by
  have h := resolve_failure_not_cached
    (fun _ => Except.error PipelineError.ExecutableNotFound) [] wKey
    PipelineError.ExecutableNotFound [] 1 rfl
  exact h.2.2 wPipe wRes rfl

/-! ### Single-flight invariant preservation -/

theorem lookupCache_mem (cache : List (InvocationKey × IdentificationResult))
    (k : InvocationKey) (v : IdentificationResult)
    (h : lookupCache cache k = some v) : (k, v) ∈ cache := by
  induction cache with
  | nil => simp [lookupCache] at h
  | cons a rest ih =>
    obtain ⟨a1, a2⟩ := a
    by_cases ha : a1 = k
    · subst ha
      simp [lookupCache] at h
      subst h
      exact List.mem_cons_self _ _
    · simp [lookupCache, ha] at h
      exact List.mem_cons_of_mem _ (ih h)

theorem inv_init (p : InvocationKey → IdentificationResult)
    (reqs : List InvocationKey) : Inv p (initState reqs) := by
  refine ⟨?_, ?_, ?_, ?_, ?_, ?_, ?_, ?_⟩
  · intro k v hv; simp [initState] at hv
  · intro k v hv; simp [initState] at hv
  · intro i k h
    simp only [initState, Option.map_eq_some'] at h
    obtain ⟨a, -, ha⟩ := h
    simp at ha
  · intro i j k hi hj
    simp only [initState, Option.map_eq_some'] at hi
    obtain ⟨a, -, ha⟩ := hi
    simp at ha
  · intro i k h
    simp only [initState, Option.map_eq_some'] at h
    obtain ⟨a, -, ha⟩ := h
    simp at ha
  · intro k; simp [initState]
  · intro i k v h
    simp only [initState, Option.map_eq_some'] at h
    obtain ⟨a, -, ha⟩ := h
    simp at ha
  · intro i k v h
    simp only [initState, Option.map_eq_some'] at h
    obtain ⟨a, -, ha⟩ := h
    simp at ha

theorem inv_step (p : InvocationKey → IdentificationResult)
    (s s' : CacheState) (hInv : Inv p s) (hs : Step p s s') : Inv p s' := by
  cases hs with
  | hit i k v hp hl =>
    refine ⟨hInv.cache_correct, hInv.cached_inflight, ?_, ?_, ?_,
      hInv.spawns_inflight, ?_, ?_⟩
    · intro j k' hj
      by_cases hji : j = i <;> simp [setCaller, hji] at hj
      exact hInv.computing_inflight j k' hj
    · intro j j' k' hj hj'
      by_cases hji : j = i <;> simp [setCaller, hji] at hj
      by_cases hji' : j' = i <;> simp [setCaller, hji'] at hj'
      exact hInv.computing_unique j j' k' hj hj'
    · intro j k' hj
      by_cases hji : j = i <;> simp [setCaller, hji] at hj
      exact hInv.computing_uncached j k' hj
    · intro j k' v' hj
      by_cases hji : j = i
      · simp [setCaller, hji] at hj
        obtain ⟨hk, hv⟩ := hj
        subst hk; subst hv
        exact hInv.cache_correct k v (lookupCache_mem s.cache k v hl)
      · simp [setCaller, hji] at hj
        exact hInv.done_correct j k' v' hj
    · intro j k' v' hj
      by_cases hji : j = i
      · simp [setCaller, hji] at hj
        obtain ⟨hk, hv⟩ := hj
        subst hk
        exact hInv.cached_inflight k v (lookupCache_mem s.cache k v hl)
      · simp [setCaller, hji] at hj
        exact hInv.done_inflight j k' v' hj
  | miss i k hp hl hn =>
    refine ⟨hInv.cache_correct, ?_, ?_, ?_, ?_, ?_, ?_, ?_⟩
    · intro k' v hv
      exact List.mem_cons_of_mem _ (hInv.cached_inflight k' v hv)
    · intro j k' hj
      by_cases hji : j = i
      · simp [setCaller, hji] at hj
        subst hj
        exact List.mem_cons_self _ _
      · simp [setCaller, hji] at hj
        exact List.mem_cons_of_mem _ (hInv.computing_inflight j k' hj)
    · intro j j' k' hj hj'
      by_cases hji : j = i <;> by_cases hji' : j' = i
      · subst hji; subst hji'; rfl
      · simp [setCaller, hji] at hj
        simp [setCaller, hji'] at hj'
        subst hj
        exact absurd (hInv.computing_inflight j' _ hj') hn
      · simp [setCaller, hji] at hj
        simp [setCaller, hji'] at hj'
        subst hj'
        exact absurd (hInv.computing_inflight j _ hj) hn
      · simp [setCaller, hji] at hj
        simp [setCaller, hji'] at hj'
        exact hInv.computing_unique j j' k' hj hj'
    · intro j k' hj
      by_cases hji : j = i
      · simp [setCaller, hji] at hj
        subst hj
        exact hl
      · simp [setCaller, hji] at hj
        exact hInv.computing_uncached j k' hj
    · intro k'
      by_cases hk : k' = k
      · subst hk
        have h0 : s.spawns k' = 0 := by
          rw [hInv.spawns_inflight k', if_neg hn]
        simp [bump, h0, List.mem_cons]
      · have := hInv.spawns_inflight k'
        simp only [bump, if_neg hk]
        rw [this]
        by_cases hm : k' ∈ s.inflight
        · simp [List.mem_cons, hm]
        · simp [List.mem_cons, hm, hk]
    · intro j k' v' hj
      by_cases hji : j = i <;> simp [setCaller, hji] at hj
      exact hInv.done_correct j k' v' hj
    · intro j k' v' hj
      by_cases hji : j = i <;> simp [setCaller, hji] at hj
      exact List.mem_cons_of_mem _ (hInv.done_inflight j k' v' hj)
  | commit i k hc =>
    refine ⟨?_, ?_, ?_, ?_, ?_, hInv.spawns_inflight, ?_, ?_⟩
    · intro k' v hv
      rcases List.mem_cons.mp hv with h | h
      · simp only [Prod.mk.injEq] at h
        obtain ⟨hk, hv'⟩ := h
        subst hk; subst hv'; rfl
      · exact hInv.cache_correct k' v h
    · intro k' v hv
      rcases List.mem_cons.mp hv with h | h
      · simp only [Prod.mk.injEq] at h
        obtain ⟨hk, -⟩ := h
        subst hk
        exact hInv.computing_inflight i _ hc
      · exact hInv.cached_inflight k' v h
    · intro j k' hj
      by_cases hji : j = i <;> simp [setCaller, hji] at hj
      exact hInv.computing_inflight j k' hj
    · intro j j' k' hj hj'
      by_cases hji : j = i <;> simp [setCaller, hji] at hj
      by_cases hji' : j' = i <;> simp [setCaller, hji'] at hj'
      exact hInv.computing_unique j j' k' hj hj'
    · intro j k' hj
      by_cases hji : j = i <;> simp [setCaller, hji] at hj
      have hne : k ≠ k' := by
        intro hk
        subst hk
        exact hji (hInv.computing_unique j i k hj hc)
      simp only [lookupCache, if_neg hne]
      exact hInv.computing_uncached j k' hj
    · intro j k' v' hj
      by_cases hji : j = i
      · simp [setCaller, hji] at hj
        obtain ⟨hk, hv⟩ := hj
        subst hk; subst hv; rfl
      · simp [setCaller, hji] at hj
        exact hInv.done_correct j k' v' hj
    · intro j k' v' hj
      by_cases hji : j = i
      · simp [setCaller, hji] at hj
        obtain ⟨hk, -⟩ := hj
        subst hk
        exact hInv.computing_inflight i _ hc
      · simp [setCaller, hji] at hj
        exact hInv.done_inflight j k' v' hj

theorem inv_reaches (p : InvocationKey → IdentificationResult)
    (s s' : CacheState) (hInv : Inv p s) (h : Reaches p s s') : Inv p s' := by
  induction h with
  | refl => exact hInv
  | tail _ hstep ih => exact inv_step p _ _ ih hstep

theorem lookup_stable_step (p : InvocationKey → IdentificationResult)
    (s s' : CacheState) (k : InvocationKey) (v : IdentificationResult)
    (hInv : Inv p s) (hs : Step p s s')
    (h : lookupCache s.cache k = some v) :
    lookupCache s'.cache k = some v := by
  cases hs with
  | hit i k₀ v₀ hp hl => exact h
  | miss i k₀ hp hl hn => exact h
  | commit i k₀ hc =>
    have hnone := hInv.computing_uncached i k₀ hc
    have hne : k₀ ≠ k := by
      intro hk
      subst hk
      rw [hnone] at h
      exact Option.noConfusion h
    simp only [lookupCache, if_neg hne]
    exact h

theorem lookup_stable_reaches (p : InvocationKey → IdentificationResult)
    (s s' : CacheState) (k : InvocationKey) (v : IdentificationResult)
    (hInv : Inv p s) (hr : Reaches p s s')
    (h : lookupCache s.cache k = some v) :
    lookupCache s'.cache k = some v := by
  induction hr with
  | refl => exact h
  | tail hr' hstep ih =>
    exact lookup_stable_step p _ _ k v (inv_reaches p _ _ hInv hr') hstep ih

/-- C10: single-flight correctness over one configuration run.  In every
run reachable from an initial request set: a key once mapped in the cache
keeps that exact mapping for the rest of the run; at most one pipeline
execution (child process) ever occurs per key; and every caller that
finished for key `k` received the pipeline's one result for `k` — so all
concurrent callers of the same key observe exactly one pipeline execution
(`spawns k = 1`) and receive the same result. -/
theorem cache_single_flight (p : InvocationKey → IdentificationResult)
    (reqs : List InvocationKey) (s s' : CacheState)
    (h0 : Reaches p (initState reqs) s) (h1 : Reaches p s s') :
    (∀ k v, lookupCache s.cache k = some v → lookupCache s'.cache k = some v) ∧
    (∀ k, s'.spawns k ≤ 1) ∧
    (∀ i k v, s'.callers i = some (k, CallerPhase.done v) →
      v = p k ∧ s'.spawns k = 1) := by
  have hInv_s : Inv p s := inv_reaches p _ _ (inv_init p reqs) h0
  have hInv' : Inv p s' := inv_reaches p _ _ hInv_s h1
  refine ⟨?_, ?_, ?_⟩
  · intro k v hv
    exact lookup_stable_reaches p s s' k v hInv_s h1 hv
  · intro k
    rw [hInv'.spawns_inflight k]
    split <;> simp
  · intro i k v hd
    refine ⟨hInv'.done_correct i k v hd, ?_⟩
    rw [hInv'.spawns_inflight k, if_pos (hInv'.done_inflight i k v hd)]

/-- The pipeline used by the C10 witness. -/
def wP : InvocationKey → IdentificationResult := fun _ => wRes

/-- Witness for C10: two concurrent callers request `wKey`; the schedule
lets caller 0 miss (one spawn), commit, and caller 1 then hit the cache.
Both callers finish with the pipeline's result, and exactly one child
process was spawned for the key. -/
theorem cache_single_flight_witness :
    wRes = wP wKey ∧ bump (fun _ => 0) wKey wKey = 1 := by
  have step1 := Step.miss (p := wP) (initState [wKey, wKey]) 0 wKey rfl rfl
    (List.not_mem_nil wKey)
  have step2 := Step.commit (p := wP)
    { initState [wKey, wKey] with
      callers := setCaller (initState [wKey, wKey]).callers 0
        (wKey, CallerPhase.computing)
      inflight := [wKey]
      spawns := bump (initState [wKey, wKey]).spawns wKey } 0 wKey rfl
  have step3 := Step.hit (p := wP)
    { initState [wKey, wKey] with
      cache := [(wKey, wRes)]
      callers := setCaller (setCaller (initState [wKey, wKey]).callers 0
        (wKey, CallerPhase.computing)) 0 (wKey, CallerPhase.done wRes)
      inflight := [wKey]
      spawns := bump (initState [wKey, wKey]).spawns wKey } 1 wKey wRes rfl rfl
  have chain : Reaches wP (initState [wKey, wKey]) _ :=
    Relation.ReflTransGen.tail
      (Relation.ReflTransGen.tail
        (Relation.ReflTransGen.tail Relation.ReflTransGen.refl step1) step2) step3
  have h := cache_single_flight wP [wKey, wKey] _ _ chain Relation.ReflTransGen.refl
  have hdone := h.2.2 1 wKey wRes rfl
  exact ⟨hdone.1, hdone.2⟩

end PicoMeson
